import Mathlib

/-!
Shallow embedding of the KPM computational core of the pybinding repository
(`cppcore/src/kpm/Strategy.cpp`), of the lattice `System` constructor
(`cppcore/src/system/System.cpp`) and of the SIMD loop splitter
(`cppcore/include/support/simd.hpp`).

Machine floating-point scalars are modelled by exact rationals; complex
scalars by pairs of rationals.  Components of the KPM pipeline whose code is
not part of the excerpt (Bounds, OptimizedHamiltonian internals, kernels,
moment computation, reconstruction, starters) are modelled from the spec and
carry a doc comment saying so.
-/

namespace KPM

/-- Complex rational scalar: the model of `std::complex<double>` values
flowing through the KPM pipeline (a real `double` is the pair with zero
imaginary part). -/
structure Cplx where
  re : ℚ
  im : ℚ
deriving DecidableEq, Repr

def czero : Cplx := ⟨0, 0⟩

def cadd (x y : Cplx) : Cplx := ⟨x.re + y.re, x.im + y.im⟩

def csub (x y : Cplx) : Cplx := ⟨x.re - y.re, x.im - y.im⟩

def cmul (x y : Cplx) : Cplx :=
  ⟨x.re * y.re - x.im * y.im, x.re * y.im + x.im * y.re⟩

def cconj (x : Cplx) : Cplx := ⟨x.re, -x.im⟩

/-- Multiply a complex scalar by a rational factor. -/
def csmul (q : ℚ) (x : Cplx) : Cplx := ⟨q * x.re, q * x.im⟩

/-- Dense vector of complex scalars. -/
def Vec := List Cplx
deriving DecidableEq, Repr

/-- Dense matrix model of `SparseMatrixX<scalar_t>`: the sparse storage
format is a performance detail; the embedding keeps the matrix semantics. -/
def Mat := List (List Cplx)
deriving DecidableEq, Repr

/-- Inner product `⟨t|v⟩ = Σ conj(t i) * v i`. -/
def inner (t v : Vec) : Cplx :=
  (List.zipWith (fun a b => cmul (cconj a) b) t v).foldr cadd czero

/-- Matrix-vector product. -/
def matVec (m : Mat) (v : Vec) : Vec :=
  m.map (fun row => (List.zipWith cmul row v).foldr cadd czero)

/-- Pointwise vector sum. -/
def vecAdd (x y : Vec) : Vec := List.zipWith cadd x y

/-- Pointwise difference. -/
def vecSub (x y : Vec) : Vec := List.zipWith csub x y

/-- Scale every entry of a vector by a rational factor. -/
def vecSmul (q : ℚ) (v : Vec) : Vec := v.map (csmul q)

/-- Unit basis vector of dimension `n` with a one at position `i`
(the model of `exval_starter`, which starts the recursion from a single
basis element). -/
def unitVec (n i : ℕ) : Vec :=
  (List.range n).map (fun j => if j = i then ⟨1, 0⟩ else czero)

/-- Scaling factors `(a, b)`: the affine map taking the spectrum of `H`
into the Chebyshev domain, `H' = (H - b·I)/a`. -/
structure Scale where
  a : ℚ
  b : ℚ
deriving DecidableEq, Repr

/-- Rescale the matrix: entry `(i, j)` becomes `(H i j - [i = j]·b) / a`
(the model of the rescaling applied when the optimized operator is built). -/
def scaleMat (m : Mat) (s : Scale) : Mat :=
  m.mapIdx (fun i row =>
    row.mapIdx (fun j x =>
      csmul (1 / s.a) (csub x (if i = j then ⟨s.b, 0⟩ else czero))))

/-- Modelled from the spec: the iterative Lanczos extremal-eigenvalue
estimator (`Bounds` internals, not in the excerpt) replaced by a
deterministic spectral-range bound computed from the matrix entries. -/
def lanczosBounds (m : Mat) (precision : ℚ) : ℚ × ℚ :=
  let g := (m.map (fun row =>
    (row.map (fun x => |x.re| + |x.im|)).foldr (· + ·) 0)).foldr max 0
  (-(g + precision), g + precision)

/-- Modelled from the spec: the safety margin making the rescaled spectrum
lie strictly inside `(-1, 1)`. -/
def boundsMargin : ℚ := 1 / 100

/-- Modelled from the spec: derive scaling factors from a spectral range,
`a = (max - min)/2 · (1 + margin)`, `b = (max + min)/2`. -/
def mkScale (lo hi : ℚ) : Scale :=
  ⟨(hi - lo) / 2 * (1 + boundsMargin), (hi + lo) / 2⟩

/-- The `Bounds<scalar_t>` object: either automatic estimation from the
held operator, or user-defined bounds. -/
inductive Bounds where
  | auto (ham : Mat) (precision : ℚ)
  | user (lo hi : ℚ)
deriving DecidableEq, Repr

/-- Model of `Bounds::scaling_factors()`: the `(a, b)` pair for the held range. -/
def scalingFactors : Bounds → Scale
  | .auto m p => let r := lanczosBounds m p; mkScale r.1 r.2
  | .user lo hi => mkScale lo hi

/-- The compile-time scalar field of a `StrategyTemplate<scalar_t>`
instantiation. -/
inductive ScalarTag where
  | real
  | cplx
deriving DecidableEq, Repr

/-- The type-erased `Hamiltonian` variant handed to `change_hamiltonian`:
a scalar-field tag plus the matrix data. -/
structure Hamiltonian where
  tag : ScalarTag
  mat : Mat
deriving DecidableEq, Repr

/-- The `AlgorithmConfig`-like part of `Config`. -/
structure Algorithm where
  reorder : Bool
  optimal_size : Bool
deriving DecidableEq, Repr

/-- KPM `Config`: energy-range override, Lanczos precision, matrix format
hint, algorithm flags and number of random DOS realizations. -/
structure Config where
  min_energy : ℚ
  max_energy : ℚ
  lanczos_precision : ℚ
  matrix_format : ℕ
  algorithm : Algorithm
  num_random : ℕ
deriving DecidableEq, Repr

/-- Modelled from the spec: `Kernel::required_num_moments` (kernel code not
in the excerpt) — a deterministic moment count decreasing in the rescaled
broadening. -/
def requiredNumMoments (rescaledBroadening : ℚ) : ℕ :=
  (⌈(4 : ℚ) / rescaledBroadening⌉).toNat + 2

/-- Modelled from the spec: the damping coefficient `g n N` of the kernel —
a linear taper of high-order moments. -/
def kernelG (n N : ℕ) : ℚ := ((N : ℚ) - (n : ℚ)) / (N : ℚ)

/-- Modelled from the spec: `Kernel::apply`, multiplying moment `n` by
`g n N` in place. -/
def kernelApply (mu : Vec) : Vec :=
  mu.mapIdx (fun n c => csmul (kernelG n mu.length) c)

/-- Query indices: one row against a set of columns (`{index, index}`
diagonal queries use the singleton column list). -/
structure Query where
  row : ℕ
  cols : List ℕ
deriving DecidableEq, Repr

/-- Model of `Indices::is_diagonal`: a single column equal to the row. -/
def Query.isDiagonal (q : Query) : Bool := q.cols = [q.row]

/-- The query-shaped optimized view: the query, the scaling used and the
rescaled matrix (reordering is a pure relabeling and is modelled as the
identity relabeling). -/
structure OptView where
  query : Query
  scale : Scale
  matrix : Mat
deriving DecidableEq, Repr

/-- Model of `OptimizedHamiltonian`: holds the operator it was built from, the
matrix-format hint, the reorder flag, and the per-query cached view
(`none` until `optimize_for` runs). -/
structure OptHamiltonian where
  ham : Mat
  format : ℕ
  reorder : Bool
  cache : Option OptView
deriving DecidableEq, Repr

/-- Model of `OptimizedHamiltonian::optimize_for`: rebuild the cached view for the
given query and scaling factors (a pure function of its inputs). -/
def optimizeFor (oh : OptHamiltonian) (q : Query) (s : Scale) : OptHamiltonian :=
  { oh with cache := some ⟨q, s, scaleMat oh.ham s⟩ }

/-- Accumulated statistics.  Timing is modelled by a call counter; the
`numMoments` field models `populate_stats` recording the per-query moment
count among the per-query statistics. -/
structure Stats where
  moments_time : ℕ
  multiplier : ℕ
  numMoments : ℕ
deriving DecidableEq, Repr

def initStats : Stats := ⟨0, 0, 0⟩

/-- Modelled from the spec: `OptimizedHamiltonian::populate_stats`, storing
the per-query moment count into the accumulated statistics. -/
def populateStats (st : Stats) (numMoments : ℕ) : Stats :=
  { st with numMoments := numMoments }

/-- The `tic`/`toc` pair around a moment computation, modelled as one tick
of the moments timer. -/
def tocTimer (st : Stats) : Stats :=
  { st with moments_time := st.moments_time + 1 }

/-- Model of `StrategyTemplate<scalar_t>`: the compiled scalar field, the held
operator, the configuration, the scaling bounds, the optimized-operator
cache and the accumulated statistics. -/
structure Strategy where
  tag : ScalarTag
  hamiltonian : Mat
  config : Config
  bounds : Bounds
  optimizedHamiltonian : OptHamiltonian
  stats : Stats
deriving DecidableEq, Repr

/-- The anonymous-namespace helper `reset_bounds`: automatic bounds when no
explicit energy range is configured (`min_energy == max_energy`),
user-defined bounds otherwise. -/
def resetBounds (ham : Mat) (cfg : Config) : Bounds :=
  if cfg.min_energy = cfg.max_energy then
    .auto ham cfg.lanczos_precision
  else
    .user cfg.min_energy cfg.max_energy

/-- A freshly constructed `OptimizedHamiltonian` (no cached view yet). -/
def freshOptHamiltonian (ham : Mat) (cfg : Config) : OptHamiltonian :=
  ⟨ham, cfg.matrix_format, cfg.algorithm.reorder, none⟩

/-- The `StrategyTemplate` constructor: initializes the members and fails
with `std::invalid_argument` when an explicit `min_energy > max_energy`
range is supplied. -/
def mkStrategy (tag : ScalarTag) (h : Mat) (cfg : Config) :
    Except String Strategy :=
  if cfg.min_energy > cfg.max_energy then
    .error "KPM: Invalid energy range specified (min > max)."
  else
    .ok ⟨tag, h, cfg, resetBounds h cfg, freshOptHamiltonian h cfg, initStats⟩

/-- Model of `StrategyTemplate::change_hamiltonian`: reject a scalar-field mismatch,
otherwise replace the operator, rebuild the optimized-operator holder and
reset the bounds. -/
def changeHamiltonian (s : Strategy) (h : Hamiltonian) : Bool × Strategy :=
  if h.tag ≠ s.tag then
    (false, s)
  else
    (true, { s with
      hamiltonian := h.mat,
      optimizedHamiltonian := freshOptHamiltonian h.mat s.config,
      bounds := resetBounds h.mat s.config })

/-- Modelled from the spec: the three-term Chebyshev moment recursion
(`calc_moments`, not in the excerpt) — `α₀ = starter`, `α₁ = H'·α₀`,
`αₙ₊₁ = 2·H'·αₙ − αₙ₋₁`, moment `n` is `⟨target|αₙ⟩`.  `momentsFrom m t p c k`
emits the next `k` moments given the previous vector `p` and current
vector `c`. -/
def momentsFrom (m : Mat) (t : Vec) : Vec → Vec → ℕ → Vec
  | _, _, 0 => []
  | p, c, k + 1 =>
      inner t c :: momentsFrom m t c (vecSub (vecSmul 2 (matVec m c)) p) k

/-- Diagonal moments: target is the starter itself. -/
def computeDiagonal (m : Mat) (starter : Vec) (numMoments : ℕ) : Vec :=
  momentsFrom m starter starter (matVec m starter) numMoments

/-- Off-diagonal moments: one moment sequence per queried column, all
extracted from the recursion started at the row starter. -/
def computeOffDiagonal (m : Mat) (dim : ℕ) (starter : Vec) (cols : List ℕ)
    (numMoments : ℕ) : List Vec :=
  cols.map (fun c => momentsFrom m (unitVec dim c) starter (matVec m starter) numMoments)

/-- Chebyshev sum `Σₙ μₙ·Tₙ(x)` over rational moments, by the three-term
scalar recurrence. -/
def chebSumR (x : ℚ) : ℚ → ℚ → List ℚ → ℚ
  | _, _, [] => 0
  | t0, t1, mu :: rest => mu * t0 + chebSumR x t1 (2 * x * t1 - t0) rest

/-- Chebyshev sum with complex moments. -/
def chebSumC (x : ℚ) : ℚ → ℚ → Vec → Cplx
  | _, _, [] => czero
  | t0, t1, mu :: rest => cadd (csmul t0 mu) (chebSumC x t1 (2 * x * t1 - t0) rest)

/-- Modelled from the spec: `reconstruct<real_t>` — evaluate the damped
expansion at each grid energy after mapping it to the rescaled coordinate
`x = (E - b)/a`; the closed-form density normalization factor
`2/(π·a·√(1−x²))` involves `π` and a square root and is left out of the
rational model (it is a deterministic function of `x` and `a`). -/
def reconstructReal (mu : List ℚ) (energy : List ℚ) (s : Scale) : List ℚ :=
  energy.map (fun e => chebSumR ((e - s.b) / s.a) 1 ((e - s.b) / s.a) mu)

/-- Modelled from the spec: `reconstruct_greens` — the complex closed-form
summation, evaluated on the same rescaled coordinate. -/
def reconstructGreens (mu : Vec) (energy : List ℚ) (s : Scale) : Vec :=
  energy.map (fun e => chebSumC ((e - s.b) / s.a) 1 ((e - s.b) / s.a) mu)

/-- Model of `StrategyTemplate::ldos`: scale factors, moment count from the rescaled
broadening, per-query optimization, diagonal moment recursion from the unit
starter, kernel damping, real part, reconstruction. -/
def ldos (s : Strategy) (index : ℕ) (energy : List ℚ) (broadening : ℚ) :
    List ℚ × Strategy :=
  let scale := scalingFactors s.bounds
  let numMoments := requiredNumMoments (broadening / scale.a)
  let oh := optimizeFor s.optimizedHamiltonian ⟨index, [index]⟩ scale
  let st := populateStats s.stats numMoments
  let m := scaleMat oh.ham scale
  let mu := computeDiagonal m (unitVec m.length index) numMoments
  let damped := kernelApply mu
  (reconstructReal (damped.map Cplx.re) energy scale,
   { s with optimizedHamiltonian := oh, stats := tocTimer st })

/-- Model of `StrategyTemplate::greens_vector`: one row against a column list; a
diagonal query uses the diagonal recursion, otherwise one moment sequence
per column is damped and reconstructed. -/
def greensVector (s : Strategy) (row : ℕ) (cols : List ℕ) (energy : List ℚ)
    (broadening : ℚ) : List Vec × Strategy :=
  let scale := scalingFactors s.bounds
  let numMoments := requiredNumMoments (broadening / scale.a)
  let q : Query := ⟨row, cols⟩
  let oh := optimizeFor s.optimizedHamiltonian q scale
  let st := populateStats s.stats numMoments
  let m := scaleMat oh.ham scale
  let s' : Strategy := { s with optimizedHamiltonian := oh, stats := tocTimer st }
  if q.isDiagonal then
    let mu := computeDiagonal m (unitVec m.length row) numMoments
    let damped := kernelApply mu
    ([reconstructGreens damped energy scale], s')
  else
    let muVec := computeOffDiagonal m m.length (unitVec m.length row) cols numMoments
    let dampedEach := muVec.map kernelApply
    (dampedEach.map (fun mu => reconstructGreens mu energy scale), s')

/-- Model of `StrategyTemplate::greens`: wraps `greens_vector` with a single column
and moves out the front element. -/
def greens (s : Strategy) (row col : ℕ) (energy : List ℚ) (broadening : ℚ) :
    Vec × Strategy :=
  let r := greensVector s row [col] energy broadening
  (r.1.headD [], r.2)

/-- Modelled from the spec: `std::mt19937` as deterministic generator
state; the default-constructed generator has state `0` and each starter
draw advances the state by one. -/
def genInit : ℕ := 0

/-- Modelled from the spec: `random_starter` — a vector of unit-magnitude
`±1` entries drawn deterministically from the generator state, which is
advanced by the call. -/
def randomStarter (dim : ℕ) (g : ℕ) : Vec × ℕ :=
  ((List.range dim).map (fun i => if (g + i) % 3 = 0 then ⟨1, 0⟩ else ⟨-1, 0⟩),
   g + 1)

/-- Model of `StrategyTemplate::dos`: stochastic trace estimation — `num_random`
diagonal recursions from random starters drawn from a generator local to
the call, accumulated into a running total, divided by `num_random`,
kernel-damped, real part taken at reconstruction;
`stats.multiplier = num_random`. -/
def dos (s : Strategy) (energy : List ℚ) (broadening : ℚ) :
    List ℚ × Strategy :=
  let scale := scalingFactors s.bounds
  let numMoments := requiredNumMoments (broadening / scale.a)
  let oh := optimizeFor s.optimizedHamiltonian ⟨0, [0]⟩ scale
  let st := populateStats s.stats numMoments
  let m := scaleMat oh.ham scale
  let dim := m.length
  let st2 := { st with multiplier := s.config.num_random }
  let acc := (List.range s.config.num_random).foldl
    (fun (x : Vec × ℕ) _ =>
      let r := randomStarter dim x.2
      (vecAdd x.1 (computeDiagonal m r.1 numMoments), r.2))
    (List.replicate numMoments czero, genInit)
  let total := vecSmul (1 / (s.config.num_random : ℚ)) acc.1
  let damped := kernelApply total
  (reconstructReal (damped.map Cplx.re) energy scale,
   { s with optimizedHamiltonian := oh, stats := tocTimer st2 })

/-- One stochastic realization of the diagonal moments: the moments from
the starter drawn at generator state `j` (the `j`-th draw of the local
default-seeded generator). -/
def dosRealization (s : Strategy) (broadening : ℚ) (j : ℕ) : Vec :=
  let scale := scalingFactors s.bounds
  let numMoments := requiredNumMoments (broadening / scale.a)
  let m := scaleMat s.optimizedHamiltonian.ham scale
  computeDiagonal m (randomStarter m.length j).1 numMoments

/-- The moment sequence `dos` hands to kernel damping: the running total
divided by `num_random`. -/
def dosTotal (s : Strategy) (broadening : ℚ) : Vec :=
  let scale := scalingFactors s.bounds
  let numMoments := requiredNumMoments (broadening / scale.a)
  let m := scaleMat s.optimizedHamiltonian.ham scale
  let acc := (List.range s.config.num_random).foldl
    (fun (x : Vec × ℕ) _ =>
      let r := randomStarter m.length x.2
      (vecAdd x.1 (computeDiagonal m r.1 numMoments), r.2))
    (List.replicate numMoments czero, genInit)
  vecSmul (1 / (s.config.num_random : ℚ)) acc.1

/-- Modelled from the spec: the reading under which the stochastic
generator is state seeded per Strategy instance — the generator state lives
next to the Strategy and each `dos` call continues from where the previous
one stopped.  Kept only to compare against the source's `dos`, whose
generator is a local default-constructed `std::mt19937`. -/
structure SeededStrategy where
  core : Strategy
  genState : ℕ
deriving DecidableEq, Repr

/-- Modelled from the spec: `dos` as it would behave with per-instance
generator state (see `SeededStrategy`); identical to `dos` except that the
accumulation loop starts from the instance's generator state and stores the
advanced state back. -/
def dosPerInstance (t : SeededStrategy) (energy : List ℚ) (broadening : ℚ) :
    List ℚ × SeededStrategy :=
  let s := t.core
  let scale := scalingFactors s.bounds
  let numMoments := requiredNumMoments (broadening / scale.a)
  let oh := optimizeFor s.optimizedHamiltonian ⟨0, [0]⟩ scale
  let st := populateStats s.stats numMoments
  let m := scaleMat oh.ham scale
  let dim := m.length
  let st2 := { st with multiplier := s.config.num_random }
  let acc := (List.range s.config.num_random).foldl
    (fun (x : Vec × ℕ) _ =>
      let r := randomStarter dim x.2
      (vecAdd x.1 (computeDiagonal m r.1 numMoments), r.2))
    (List.replicate numMoments czero, t.genState)
  let total := vecSmul (1 / (s.config.num_random : ℚ)) acc.1
  let damped := kernelApply total
  (reconstructReal (damped.map Cplx.re) energy scale,
   ⟨{ s with optimizedHamiltonian := oh, stats := tocTimer st2 }, acc.2⟩)

/-! Concrete example values used by the witnesses: a 2×2 nearest-neighbour
hopping operator with user-defined bounds. -/

def exMat : Mat := [[⟨0, 0⟩, ⟨1, 0⟩], [⟨1, 0⟩, ⟨0, 0⟩]]

def exCfg : Config :=
  { min_energy := -2, max_energy := 2, lanczos_precision := 1 / 100,
    matrix_format := 0, algorithm := ⟨false, true⟩, num_random := 2 }

def exCfgBad : Config :=
  { min_energy := 1, max_energy := 0, lanczos_precision := 1 / 100,
    matrix_format := 0, algorithm := ⟨false, true⟩, num_random := 2 }

def exStrategy : Strategy :=
  ⟨.real, exMat, exCfg, .user (-2) 2, freshOptHamiltonian exMat exCfg, initStats⟩

def exHamMismatch : Hamiltonian := ⟨.cplx, exMat⟩

def exHamMatch : Hamiltonian := ⟨.real, [[⟨0, 0⟩]]⟩

def exSeeded : SeededStrategy := ⟨exStrategy, genInit⟩

def exEnergy : List ℚ := [1]

def exBroadening : ℚ := 202 / 25

section
unseal Rat.add Rat.mul Rat.inv Rat.sub

/-- C7 counterexample: the stochastic generator of `dos` is not state
seeded per Strategy instance.  On a concrete Strategy the source-model
`dos` gives bit-identical results on two consecutive calls (its generator
is a local default-constructed one), while the per-instance-seeded reading
of the claim gives a different second result: the first calls agree and
the second calls differ. -/
theorem dos_generator_not_instance_seeded :
    (dos exStrategy exEnergy exBroadening).1
      = (dosPerInstance exSeeded exEnergy exBroadening).1 ∧
    (dos (dos exStrategy exEnergy exBroadening).2 exEnergy exBroadening).1
      = (dos exStrategy exEnergy exBroadening).1 ∧
    (dosPerInstance (dosPerInstance exSeeded exEnergy exBroadening).2
        exEnergy exBroadening).1
      ≠ (dos (dos exStrategy exEnergy exBroadening).2 exEnergy
          exBroadening).1 := by
  refine ⟨by decide, rfl, by decide⟩

end

/-- The accumulation loop of `dos`, characterized: folding the
starter-draw/compute/accumulate step over `num_random` iterations starting
at generator state `g` sums the realizations drawn at states
`g, g+1, …` and leaves the generator at `g + R`. -/
theorem foldl_randomStarter (m : Mat) (d nm : ℕ) :
    ∀ (R : ℕ) (v : Vec) (g : ℕ),
      (List.range R).foldl
        (fun (x : Vec × ℕ) _ =>
          (vecAdd x.1 (computeDiagonal m (randomStarter d x.2).1 nm),
           (randomStarter d x.2).2)) (v, g)
      = (((List.range R).map
            (fun j => computeDiagonal m (randomStarter d (g + j)).1 nm)).foldl
          vecAdd v, g + R) := by
  intro R
  induction R with
  | zero => intro v g; simp
  | succ n ih =>
      intro v g
      rw [List.range_succ, List.foldl_append, List.map_append,
        List.foldl_append, ih]
      simp only [List.foldl_cons, List.foldl_nil, List.map_cons, List.map_nil]
      rfl

/-- C6: for `num_random ≥ 1`, the moment sequence `dos` passes to kernel
damping is the arithmetic mean of the `num_random` random-starter
realizations (their sum divided by `num_random`), the returned array is
the reconstruction of the real part of the damped mean, and
`stats.multiplier` is set to `num_random`. -/
theorem dos_mean_of_realizations (s : Strategy) (energy : List ℚ)
    (broadening : ℚ) (hR : 1 ≤ s.config.num_random) :
    dosTotal s broadening
      = vecSmul (1 / (s.config.num_random : ℚ))
          (((List.range s.config.num_random).map
              (dosRealization s broadening)).foldl vecAdd
            (List.replicate
              (requiredNumMoments (broadening / (scalingFactors s.bounds).a))
              czero)) ∧
    (dos s energy broadening).1
      = reconstructReal ((kernelApply (dosTotal s broadening)).map Cplx.re)
          energy (scalingFactors s.bounds) ∧
    (dos s energy broadening).2.stats.multiplier = s.config.num_random := by
  refine ⟨?_, rfl, rfl⟩
  unfold dosTotal dosRealization
  dsimp only
  rw [foldl_randomStarter]
  simp [genInit]

theorem dos_mean_of_realizations_witness :
    1 ≤ exStrategy.config.num_random ∧
    (dos exStrategy exEnergy exBroadening).2.stats.multiplier
      = exStrategy.config.num_random :=
  ⟨by decide,
   (dos_mean_of_realizations exStrategy exEnergy exBroadening (by decide)).2.2⟩

/-- C7 (amended): the pseudo-random generator for stochastic DOS starters
is a fresh default-seeded generator local to each `dos` call (not globally
shared and not per-instance state), so repeated `dos` computations with
identical arguments on the same Strategy are reproducible within a run. -/
theorem dos_repeat_reproducible (s : Strategy) (energy : List ℚ)
    (broadening : ℚ) :
    (dos (dos s energy broadening).2 energy broadening).1
      = (dos s energy broadening).1 := rfl

end KPM

namespace cpb

/-- Cartesian position of a lattice site. -/
def Cartesian : Type := ℚ × ℚ × ℚ
deriving DecidableEq, Repr

def origin : Cartesian := (0, 0, 0)

/-- Modelled from the spec: one site of the `Foundation` (lattice
construction is a collaborator outside the excerpt) — its position,
sublattice alias, orbital count and neighbour links
`(neighbour foundation index, hopping family id, is_conjugate)`. -/
structure FSite where
  position : Cartesian
  aliasId : ℕ
  norb : ℕ
  neighbors : List (ℕ × ℕ × Bool)
deriving DecidableEq, Repr

/-- Modelled from the spec: the `Foundation` together with its
`FinalizedIndices` — per-site finalized index (negative marks an invalid
site) and the finalized size used to resize the position array. -/
structure Foundation where
  sites : List FSite
  finalized : List ℤ
  finalizedSize : ℕ
deriving DecidableEq, Repr

/-- Model of `System::Boundary`: hopping blocks `(family, from, to)` plus the
boundary shift length. -/
structure Boundary where
  hoppingBlocks : List (ℕ × ℕ × ℕ)
  shift : Cartesian
deriving DecidableEq, Repr

/-- The populated `System`: positions, compressed sublattice entries
`(alias_id, norb)`, hopping blocks `(family, from, to)` and boundaries.
The `lattice` member only backs name lookups and is dropped from the
model. -/
structure System where
  positions : List Cartesian
  sublattices : List (ℕ × ℕ)
  hoppingBlocks : List (ℕ × ℕ × ℕ)
  boundaries : List Boundary
deriving DecidableEq, Repr

/-- Model of `System::num_sites`: the size of the position array. -/
def System.numSites (sys : System) : ℕ := sys.positions.length

/-- Model of `detail::populate_system`: resize positions to the finalized size, then
for every valid site record its position and sublattice entry and add the
non-conjugate hoppings to valid neighbours. -/
def populateSystem (f : Foundation) : System :=
  let base : System := ⟨List.replicate f.finalizedSize origin, [], [], []⟩
  (f.sites.zip f.finalized).foldl
    (fun sys sf =>
      let site := sf.1
      let index := sf.2
      if index < 0 then sys
      else
        { sys with
          positions := sys.positions.set index.toNat site.position,
          sublattices := sys.sublattices ++ [(site.aliasId, site.norb)],
          hoppingBlocks := sys.hoppingBlocks ++
            site.neighbors.filterMap (fun nb =>
              let nIdx := f.finalized.getD nb.1 (-1)
              if nIdx < 0 ∨ nb.2.2 then none
              else some (nb.2.1, index.toNat, nIdx.toNat)) })
    base

/-- Modelled from the spec: one translation of the symmetry, with the
boundary hopping blocks already collected (the `Foundation` slicing and
site shifting that produce them are outside the excerpt). -/
structure Translation where
  shiftLen : Cartesian
  hops : List (ℕ × ℕ × ℕ)
deriving DecidableEq, Repr

/-- Model of `detail::populate_boundaries`: keep one boundary per translation whose
hopping blocks are non-empty. -/
def populateBoundaries (sys : System) (translations : List Translation) :
    System :=
  { sys with boundaries := sys.boundaries ++
      translations.filterMap (fun t =>
        if t.hops.length ≠ 0 then some ⟨t.hops, t.shiftLen⟩ else none) }

/-- A hopping generator: the hopping family it feeds and the pair-producing
function applied to the site positions. -/
structure HoppingGenerator where
  familyId : ℕ
  make : List Cartesian → List (ℕ × ℕ)

/-- Model of `detail::add_extra_hoppings`: append the generated pairs to the
hopping blocks of the generator's family. -/
def addExtraHoppings (sys : System) (gen : HoppingGenerator) : System :=
  { sys with hoppingBlocks := sys.hoppingBlocks ++
      (gen.make sys.positions).map (fun pr => (gen.familyId, pr.1, pr.2)) }

/-- The system state after the three population steps of the `System`
constructor body, before the zero-site check. -/
def populatedSystem (f : Foundation) (symmetry : Option (List Translation))
    (gens : List HoppingGenerator) : System :=
  let sys0 := populateSystem f
  let sys1 := match symmetry with
    | some ts => populateBoundaries sys0 ts
    | none => sys0
  gens.foldl addExtraHoppings sys1

/-- The `System` constructor: populate, then abort with a fatal error when
the populated system has zero sites. -/
def mkSystem (f : Foundation) (symmetry : Option (List Translation))
    (gens : List HoppingGenerator) : Except String System :=
  let sys := populatedSystem f symmetry gens
  if sys.numSites = 0 then .error "Impossible system: 0 sites" else .ok sys

/-- Foundation with a single valid site, for the witness. -/
def exFoundation : Foundation := ⟨[⟨origin, 0, 1, []⟩], [0], 1⟩

/-- Foundation that finalizes to zero sites, for the witness. -/
def exFoundationEmpty : Foundation := ⟨[], [], 0⟩

end cpb

namespace simd

/-- Model of `is_aligned<bytes>(p)`: the byte address is a multiple of the
alignment. -/
def is_aligned (bytes : ℕ) (addr : ℤ) : Prop := addr % (bytes : ℤ) = 0

instance (bytes : ℕ) (addr : ℤ) : Decidable (is_aligned bytes addr) := by
  unfold is_aligned; infer_instance

/-- The peel loop of `split_loop`:
`while (!is_aligned(p + peel_end) && peel_end < end) ++peel_end`.
`p` is the base byte address, `sz` the scalar size in bytes; the fuel is
the exact number of remaining iterations, `(stop - peel_end).toNat`. -/
def peelLoopAux (p sz bytes : ℕ) (stop : ℤ) : ℕ → ℤ → ℤ
  | 0, pe => pe
  | fuel + 1, pe =>
      if ¬ is_aligned bytes ((p : ℤ) + pe * (sz : ℤ)) ∧ pe < stop then
        peelLoopAux p sz bytes stop fuel (pe + 1)
      else pe

/-- The trailing loop of `split_loop`:
`while ((vec_end - peel_end) % step != 0) --vec_end`.  The C remainder
agrees with the mathematical one on the non-negative operands arising
here. -/
def vecLoopAux (step pe : ℤ) : ℕ → ℤ → ℤ
  | 0, ve => ve
  | fuel + 1, ve =>
      if (ve - pe) % step = 0 then ve else vecLoopAux step pe fuel (ve - 1)

/-- The `split_loop_t<N>` result: the three section boundaries (the C++
`end` field is named `stop`). -/
structure SplitLoopT where
  start : ℤ
  peelEnd : ℤ
  vecEnd : ℤ
  stop : ℤ
deriving DecidableEq, Repr

/-- Model of `split_loop<scalar_t, step>(p, start, end)`. -/
def split_loop (p sz bytes step : ℕ) (start stop : ℤ) : SplitLoopT :=
  let peelEnd := peelLoopAux p sz bytes stop (stop - start).toNat start
  let vecEnd := vecLoopAux (step : ℤ) peelEnd (stop - peelEnd).toNat stop
  ⟨start, peelEnd, vecEnd, stop⟩

/-- The integer interval `[a, b)` as a list. -/
def intRange (a b : ℤ) : List ℤ :=
  (List.range (b - a).toNat).map (fun (k : ℕ) => a + (k : ℤ))

/-- The head indices of the vector section:
`for (i = peel_end; i < vec_end; i += step)`. -/
def vecStartsAux (step ve : ℤ) : ℕ → ℤ → List ℤ
  | 0, _ => []
  | fuel + 1, i => if i < ve then i :: vecStartsAux step ve fuel (i + step) else []

/-- The indices `split_loop_t::for_each` touches, in loop order: the scalar
body on `[start, peel_end)`, the vector body on each step-sized block
starting in `[peel_end, vec_end)`, the scalar body on `[vec_end, stop)`. -/
def forEachIndices (step : ℕ) (s : SplitLoopT) : List ℤ :=
  intRange s.start s.peelEnd
    ++ (vecStartsAux (step : ℤ) s.vecEnd (s.vecEnd - s.peelEnd).toNat
          s.peelEnd).flatMap (fun i => intRange i (i + (step : ℤ)))
    ++ intRange s.vecEnd s.stop

end simd

namespace cpb

/-- C9: if the populated `System` ends up with zero sites, the constructor
aborts with the fatal zero-site error and no `System` value is produced;
consequently every constructed `System` has at least one site. -/
theorem system_construction_no_zero_sites (f : Foundation)
    (symmetry : Option (List Translation)) (gens : List HoppingGenerator) :
    ((populatedSystem f symmetry gens).numSites = 0 →
      mkSystem f symmetry gens = .error "Impossible system: 0 sites") ∧
    ∀ sys : System, mkSystem f symmetry gens = .ok sys → 1 ≤ sys.numSites := by
  constructor
  · intro h0
    simp [mkSystem, h0]
  · intro sys hok
    unfold mkSystem at hok
    by_cases h0 : (populatedSystem f symmetry gens).numSites = 0
    · simp [h0] at hok
    · simp only [h0, if_false, Except.ok.injEq] at hok
      rw [← hok]
      omega

theorem system_construction_no_zero_sites_witness :
    mkSystem exFoundationEmpty none [] = .error "Impossible system: 0 sites" ∧
    1 ≤ (populatedSystem exFoundation none []).numSites := by
  constructor
  · exact (system_construction_no_zero_sites exFoundationEmpty none []).1
      (by decide)
  · exact (system_construction_no_zero_sites exFoundation none []).2
      (populatedSystem exFoundation none []) rfl

end cpb

namespace simd

/-- Invariant of the peel loop: starting at or below `stop` with enough
fuel, the loop never moves backwards and never passes `stop`. -/
theorem peelLoopAux_bounds (p sz bytes : ℕ) (stop : ℤ) :
    ∀ (fuel : ℕ) (pe : ℤ), pe ≤ stop → (stop - pe).toNat ≤ fuel →
      pe ≤ peelLoopAux p sz bytes stop fuel pe ∧
      peelLoopAux p sz bytes stop fuel pe ≤ stop := by
  intro fuel
  induction fuel with
  | zero => intro pe hpe _; exact ⟨le_refl pe, hpe⟩
  | succ n ih =>
      intro pe hpe hfuel
      simp only [peelLoopAux]
      split
      · rename_i hcond
        have h1 : pe + 1 ≤ stop := hcond.2
        have h2 : (stop - (pe + 1)).toNat ≤ n := by omega
        obtain ⟨ha, hb⟩ := ih (pe + 1) h1 h2
        exact ⟨by omega, hb⟩
      · exact ⟨le_refl pe, hpe⟩

/-- Invariant of the trailing loop: with enough fuel it stops between
`pe` and its starting point, at an offset from `pe` divisible by the
step. -/
theorem vecLoopAux_props (step pe : ℤ) :
    ∀ (fuel : ℕ) (ve : ℤ), pe ≤ ve → (ve - pe).toNat ≤ fuel →
      pe ≤ vecLoopAux step pe fuel ve ∧
      vecLoopAux step pe fuel ve ≤ ve ∧
      (vecLoopAux step pe fuel ve - pe) % step = 0 := by
  intro fuel
  induction fuel with
  | zero =>
      intro ve hpe hfuel
      have hv : ve = pe := by omega
      subst hv
      simp [vecLoopAux]
  | succ n ih =>
      intro ve hpe hfuel
      simp only [vecLoopAux]
      split
      · rename_i hmod
        exact ⟨hpe, le_refl ve, hmod⟩
      · rename_i hmod
        have hne : ve ≠ pe := by
          intro h
          exact hmod (by simp [h])
        have h1 : pe ≤ ve - 1 := by omega
        have h2 : (ve - 1 - pe).toNat ≤ n := by omega
        obtain ⟨ha, hb, hc⟩ := ih (ve - 1) h1 h2
        exact ⟨ha, by omega, hc⟩

/-- The `intRange` of an empty interval is empty. -/
theorem intRange_self (a : ℤ) : intRange a a = [] := by
  simp [intRange]

/-- Peel off the first element of a non-empty `intRange`. -/
theorem intRange_cons (a b : ℤ) (h : a < b) :
    intRange a b = a :: intRange (a + 1) b := by
  unfold intRange
  have h1 : (b - a).toNat = (b - (a + 1)).toNat + 1 := by omega
  rw [h1, List.range_succ_eq_map]
  simp only [List.map_cons, Nat.cast_zero, add_zero, List.map_map]
  refine congrArg (List.cons a) (congrFun (congrArg List.map ?_) _)
  funext k
  simp only [Function.comp_apply]
  push_cast
  ring

/-- Adjacent `intRange`s concatenate. -/
theorem intRange_append (b c : ℤ) (hbc : b ≤ c) :
    ∀ (n : ℕ) (a : ℤ), a ≤ b → (b - a).toNat = n →
      intRange a b ++ intRange b c = intRange a c := by
  intro n
  induction n with
  | zero =>
      intro a hab hn
      have ha : a = b := by omega
      subst ha
      rw [intRange_self]
      rfl
  | succ n ih =>
      intro a hab hn
      have hlt : a < b := by omega
      rw [intRange_cons a b hlt, intRange_cons a c (lt_of_lt_of_le hlt hbc),
        List.cons_append]
      exact congrArg (List.cons a) (ih (a + 1) (by omega) (by omega))

/-- The step-sized blocks visited by the vector section tile the interval
`[i, ve)` exactly, provided the remaining width is a multiple of the
step. -/
theorem vecStartsAux_cover (step : ℤ) (hstep : 1 ≤ step) (ve : ℤ) :
    ∀ (fuel : ℕ) (i : ℤ), i ≤ ve → (ve - i) % step = 0 →
      (ve - i).toNat ≤ fuel →
      (vecStartsAux step ve fuel i).flatMap
          (fun j => intRange j (j + step)) = intRange i ve := by
  intro fuel
  induction fuel with
  | zero =>
      intro i hive hmod hfuel
      have hv : i = ve := by omega
      subst hv
      simp [vecStartsAux, intRange_self]
  | succ n ih =>
      intro i hive hmod hfuel
      simp only [vecStartsAux]
      split
      · rename_i hlt
        obtain ⟨q, hq⟩ := Int.dvd_of_emod_eq_zero hmod
        have hq1 : 1 ≤ q := by
          rcases le_or_lt q 0 with hq0 | hq0
          · have hle : step * q ≤ 0 :=
              mul_nonpos_of_nonneg_of_nonpos (by omega) hq0
            have : (0 : ℤ) < ve - i := by omega
            linarith
          · omega
        have hstep_le : i + step ≤ ve := by
          have : step * 1 ≤ step * q :=
            mul_le_mul_of_nonneg_left hq1 (by omega)
          linarith
        have hmod2 : (ve - (i + step)) % step = 0 := by
          have h3 : ve - (i + step) = step * (q - 1) := by
            rw [mul_sub]
            linarith
          rw [h3]
          exact Int.mul_emod_right step (q - 1)
        have hfuel2 : (ve - (i + step)).toNat ≤ n := by omega
        rw [List.flatMap_cons, ih (i + step) hstep_le hmod2 hfuel2]
        exact intRange_append (i + step) ve hstep_le
          ((i + step) - i).toNat i (by omega) rfl
      · rename_i hge
        have hv : i = ve := by omega
        subst hv
        simp [intRange_self]

/-- C10: for a step of at least one and `start ≤ stop`, the sections
returned by `split_loop` satisfy
`start ≤ peel_end ≤ vec_end ≤ stop` with `vec_end - peel_end` divisible by
the step, and the indices `for_each` hands to its scalar body on
`[start, peel_end)` and `[vec_end, stop)` and to its vector body on the
step-sized blocks starting in `[peel_end, vec_end)` cover every index of
`[start, stop)` exactly once, in order. -/
theorem split_loop_sections_cover (p sz bytes step : ℕ) (start stop : ℤ)
    (hstep : 1 ≤ step) (hse : start ≤ stop) :
    start ≤ (split_loop p sz bytes step start stop).peelEnd ∧
    (split_loop p sz bytes step start stop).peelEnd
      ≤ (split_loop p sz bytes step start stop).vecEnd ∧
    (split_loop p sz bytes step start stop).vecEnd ≤ stop ∧
    ((split_loop p sz bytes step start stop).vecEnd
        - (split_loop p sz bytes step start stop).peelEnd) % (step : ℤ) = 0 ∧
    forEachIndices step (split_loop p sz bytes step start stop)
      = intRange start stop := by
  obtain ⟨h1, h2⟩ := peelLoopAux_bounds p sz bytes stop (stop - start).toNat
    start hse (le_refl _)
  obtain ⟨h3, h4, h5⟩ := vecLoopAux_props (step : ℤ)
    (peelLoopAux p sz bytes stop (stop - start).toNat start)
    (stop - peelLoopAux p sz bytes stop (stop - start).toNat start).toNat
    stop h2 (le_refl _)
  refine ⟨h1, h3, h4, h5, ?_⟩
  unfold forEachIndices split_loop
  dsimp only
  rw [vecStartsAux_cover (step : ℤ) (by exact_mod_cast hstep) _ _ _ h3 h5
    (le_refl _)]
  rw [intRange_append _ _ h3 _ _ h1 rfl,
    intRange_append _ stop h4 _ _ (le_trans h1 h3) rfl]

theorem split_loop_sections_cover_witness :
    (1 ≤ 2 ∧ (0 : ℤ) ≤ 7) ∧
    ((0 : ℤ) ≤ (split_loop 8 8 16 2 0 7).peelEnd ∧
     (split_loop 8 8 16 2 0 7).peelEnd ≤ (split_loop 8 8 16 2 0 7).vecEnd ∧
     (split_loop 8 8 16 2 0 7).vecEnd ≤ 7 ∧
     ((split_loop 8 8 16 2 0 7).vecEnd
        - (split_loop 8 8 16 2 0 7).peelEnd) % (2 : ℤ) = 0 ∧
     forEachIndices 2 (split_loop 8 8 16 2 0 7) = intRange 0 7) :=
  ⟨⟨by decide, by decide⟩, split_loop_sections_cover 8 8 16 2 0 7
    (by decide) (by decide)⟩

end simd

namespace KPM

/-- C1: `change_hamiltonian` called with an operator whose scalar field
differs from the Strategy's compiled scalar field returns `false` and
leaves the held operator, the bounds, the cached optimized operator and
the accumulated stats completely unchanged. -/
theorem change_hamiltonian_mismatch (s : Strategy) (h : Hamiltonian)
    (hne : h.tag ≠ s.tag) :
    changeHamiltonian s h = (false, s) := by
  simp [changeHamiltonian, hne]

theorem change_hamiltonian_mismatch_witness :
    exHamMismatch.tag ≠ exStrategy.tag ∧
    changeHamiltonian exStrategy exHamMismatch = (false, exStrategy) :=
  ⟨by decide, change_hamiltonian_mismatch exStrategy exHamMismatch (by decide)⟩

/-- C2: on a matching scalar field, `change_hamiltonian` returns `true`,
replaces the held operator, rebuilds the optimized-operator holder with an
empty cache, and resets the bounds: automatic bounds recomputed from the
new operator exactly when no explicit range is configured
(`min_energy = max_energy`); otherwise the user-defined bounds are kept. -/
theorem change_hamiltonian_match (s : Strategy) (h : Hamiltonian)
    (heq : h.tag = s.tag) :
    (changeHamiltonian s h).1 = true ∧
    (changeHamiltonian s h).2.hamiltonian = h.mat ∧
    (changeHamiltonian s h).2.optimizedHamiltonian
      = freshOptHamiltonian h.mat s.config ∧
    (s.config.min_energy = s.config.max_energy →
      (changeHamiltonian s h).2.bounds
        = Bounds.auto h.mat s.config.lanczos_precision) ∧
    (s.config.min_energy ≠ s.config.max_energy →
      (changeHamiltonian s h).2.bounds
        = Bounds.user s.config.min_energy s.config.max_energy) ∧
    (s.config.min_energy ≠ s.config.max_energy →
      s.bounds = Bounds.user s.config.min_energy s.config.max_energy →
      (changeHamiltonian s h).2.bounds = s.bounds) := by
  have ht : ¬ h.tag ≠ s.tag := by simpa using heq
  refine ⟨by simp [changeHamiltonian, ht], by simp [changeHamiltonian, ht],
    by simp [changeHamiltonian, ht], ?_, ?_, ?_⟩
  · intro hmm
    simp [changeHamiltonian, ht, resetBounds, hmm]
  · intro hmm
    simp [changeHamiltonian, ht, resetBounds, hmm]
  · intro hmm hb
    simp [changeHamiltonian, ht, resetBounds, hmm, hb]

theorem change_hamiltonian_match_witness :
    exHamMatch.tag = exStrategy.tag ∧
    (changeHamiltonian exStrategy exHamMatch).1 = true ∧
    (changeHamiltonian exStrategy exHamMatch).2.hamiltonian
      = exHamMatch.mat ∧
    (changeHamiltonian exStrategy exHamMatch).2.bounds = exStrategy.bounds := by
  have h := change_hamiltonian_match exStrategy exHamMatch (by decide)
  exact ⟨by decide, h.1, h.2.1, (h.2.2.2.2.2 (by decide) (by decide))⟩

/-- C3: constructing a Strategy with an explicit energy range where
`min_energy > max_energy` fails with the invalid-range error; no Strategy
value is produced, and in particular the bounds are never silently
swapped. -/
theorem strategy_construction_invalid_range (tag : ScalarTag) (h : Mat)
    (cfg : Config) (hgt : cfg.min_energy > cfg.max_energy) :
    mkStrategy tag h cfg
      = .error "KPM: Invalid energy range specified (min > max)." ∧
    ∀ s : Strategy, mkStrategy tag h cfg ≠ .ok s := by
  refine ⟨by simp [mkStrategy, hgt], ?_⟩
  intro s hs
  simp [mkStrategy, hgt] at hs

theorem strategy_construction_invalid_range_witness :
    exCfgBad.min_energy > exCfgBad.max_energy ∧
    mkStrategy .real exMat exCfgBad
      = .error "KPM: Invalid energy range specified (min > max)." :=
  ⟨by decide,
   (strategy_construction_invalid_range .real exMat exCfgBad (by decide)).1⟩

/-- C4: calling `ldos` twice with identical index, energy grid and
broadening on the Strategy returned by the first call produces an
identical result array — the stats accumulation and the optimized-operator
cache do not feed into the computed values. -/
theorem ldos_idempotent (s : Strategy) (index : ℕ) (energy : List ℚ)
    (broadening : ℚ) :
    (ldos (ldos s index energy broadening).2 index energy broadening).1
      = (ldos s index energy broadening).1 := rfl

/-- C5: `greens` returns exactly the single element of
`greens_vector(row, [col], energies, broadening)`. -/
theorem greens_is_front_of_greens_vector (s : Strategy) (row col : ℕ)
    (energy : List ℚ) (broadening : ℚ) :
    (greensVector s row [col] energy broadening).1
      = [(greens s row col energy broadening).1] := by
  unfold greens greensVector
  dsimp only
  split <;> rfl

/-- C8: every query (`ldos`, `greens_vector`, `dos`) chooses its moment
count as `required_num_moments` of the requested physical broadening
divided by the scale factor `a`. -/
theorem num_moments_uses_rescaled_broadening (s : Strategy)
    (index row : ℕ) (cols : List ℕ) (energy : List ℚ) (broadening : ℚ) :
    (ldos s index energy broadening).2.stats.numMoments
      = requiredNumMoments (broadening / (scalingFactors s.bounds).a) ∧
    (greensVector s row cols energy broadening).2.stats.numMoments
      = requiredNumMoments (broadening / (scalingFactors s.bounds).a) ∧
    (dos s energy broadening).2.stats.numMoments
      = requiredNumMoments (broadening / (scalingFactors s.bounds).a) := by
  refine ⟨rfl, ?_, rfl⟩
  unfold greensVector
  dsimp only
  split <;> rfl

end KPM
